import Mathlib

/-
Shallow embedding of the LRU memory manager (src/lrumemorymanager.cpp and
its header).  The arena is a fixed pool of `mem_total_size_` bytes; a
sentinel hunk of `headerSize` bytes sits at offset 0.  Live hunks are
modelled as records carrying their byte offset in the pool (`addr`), their
total size (`size`, header included) and the handle bound to them
(`handler`, the `handler_ptr` back-pointer; `none` models a null pointer).
The address ring (sentinel excluded) is the list `hunks`, kept in the order
the ring links it; the recency ring is the list `lru` of hunk addresses,
most-recently-used first, so the eviction victim (`least_recent_ptr` of the
sentinel) is the last element.  Handles are identified by natural numbers;
`handles h` is the `hunk_ptr_` field of handle `h` (`none` = unbound).
-/

namespace LruMM

/-- Size of the `LRUMemoryHunk` header: one `size_t` plus five pointers on a
64-bit target, i.e. `sizeof(LRUMemoryHunk) = 48`; the flexible array member
`data_ptr` starts right after, so a hunk at offset `a` has its payload at
`a + headerSize`. -/
def headerSize : Nat := 48

/-- Alignment constant `MEMORY_ALIGNMENT` from the source. -/
def MEMORY_ALIGNMENT : Nat := 16

/-- One live hunk: pool offset, total size (header included, the `size`
field of `LRUMemoryHunk`), and the handle bound via `handler_ptr`. -/
structure LRUMemoryHunk where
  addr : Nat
  size : Nat
  handler : Option Nat
deriving DecidableEq

/-- The manager state: pool capacity (`mem_total_size_`), consumed bytes
(`mem_allocated_size_`, sentinel included), the address ring after the
sentinel, the recency list (most-recent first) of hunk addresses, and the
binding state of every handle. -/
structure LRUMemoryManager where
  mem_total_size_ : Nat
  mem_allocated_size_ : Nat
  hunks : List LRUMemoryHunk
  lru : List Nat
  handles : Nat → Option Nat

/-- The constructor `LRUMemoryManager(mem_pool_size)`: requires
`mem_pool_size > 0` (`Expects`), installs the sentinel of `headerSize`
bytes at offset 0 and sets `mem_allocated_size_ = sizeof(LRUMemoryHunk)`;
both rings hold only the sentinel, and no handle is bound. -/
def init (mem_pool_size : Nat) : LRUMemoryManager :=
  { mem_total_size_ := mem_pool_size
    mem_allocated_size_ := headerSize
    hunks := []
    lru := []
    handles := fun _ => none }

/-- The size alignment performed at the top of `real_alloc`:
`(size + sizeof(LRUMemoryHunk) + ALIGNMENT_MASK) & ~ALIGNMENT_MASK`, i.e.
`size + 48` rounded up to a multiple of 16. -/
def alignedSizeOf (size : Nat) : Nat :=
  16 * ((size + headerSize + 15) / 16)

/-- The gap-search loop of `try_alloc`.  `prevEnd` is
`current_hunk_ptr + current_hunk_ptr->size` (starting at the sentinel end,
`headerSize`); for each next hunk the code tests
`next_start >= current_end + size` and, on success, placement-news the hunk
at `current_end` and splices it before `next`.  After the ring is
exhausted, the tail test `pool_end >= last_hunk_end + size` places the hunk
after the last one.  Returns the new hunk offset together with the updated
address ring (`handler_ptr` of a fresh hunk is null until `real_alloc`
binds it). -/
def try_alloc_go (size cap : Nat) : Nat → List LRUMemoryHunk →
    Option (Nat × List LRUMemoryHunk)
  | prevEnd, [] =>
    if prevEnd + size ≤ cap then
      some (prevEnd, [⟨prevEnd, size, none⟩])
    else
      none
  | prevEnd, hk :: rest =>
    if prevEnd + size ≤ hk.addr then
      some (prevEnd, ⟨prevEnd, size, none⟩ :: hk :: rest)
    else
      (try_alloc_go size cap (hk.addr + hk.size) rest).map
        (fun p => (p.1, hk :: p.2))

/-- Model of `LRUMemoryManager::try_alloc(size)`: first-fit walk of the address
ring, then the tail gap; on success the new hunk is linked into the
address ring, `link_lru` puts it at the most-recently-used end, and
`mem_allocated_size_ += size`. -/
def try_alloc (m : LRUMemoryManager) (size : Nat) :
    Option (Nat × LRUMemoryManager) :=
  (try_alloc_go size m.mem_total_size_ headerSize m.hunks).map
    (fun p =>
      (p.1,
        { m with
          hunks := p.2
          lru := p.1 :: m.lru
          mem_allocated_size_ := m.mem_allocated_size_ + size }))

/-- Model of `LRUMemoryManager::real_free(handle_ptr)`: reads
`handle_ptr->hunk_ptr_` (a null there is dereferenced — modelled as
`none`), unlinks the hunk from the address ring, subtracts its size from
`mem_allocated_size_`, unlinks it from the recency ring and nulls the
handle back-pointer.  A bound address with no matching ring node would be a
dangling pointer in the source, also modelled as `none`. -/
def real_free (m : LRUMemoryManager) (hid : Nat) : Option LRUMemoryManager :=
  match m.handles hid with
  | none => none
  | some a =>
    match m.hunks.find? (fun hk => hk.addr == a) with
    | none => none
    | some hk =>
      some
        { m with
          hunks := m.hunks.eraseP (fun hk2 => hk2.addr == a)
          lru := m.lru.erase a
          mem_allocated_size_ := m.mem_allocated_size_ - hk.size
          handles := fun i => if i = hid then none else m.handles i }

/-- Outcome of `real_alloc`: `success a m` returns the payload pointer of
the hunk placed at offset `a` (the pointer value is `a + headerSize`) in
state `m`; `failure m` is a null return with final state `m`; `crash`
models a null-pointer dereference inside the eviction path; `outOfFuel` is
the artefact of the fuelled loop and never occurs on well-formed states. -/
inductive AllocResult where
  | success (a : Nat) (m : LRUMemoryManager)
  | failure (m : LRUMemoryManager)
  | crash
  | outOfFuel

/-- After `try_alloc` succeeds, `real_alloc` executes
`hunk_ptr->handler_ptr = handle_ptr; handle_ptr->hunk_ptr_ = hunk_ptr`:
the fresh hunk and the handle are bound to each other. -/
def bindNew (m : LRUMemoryManager) (hid a : Nat) : LRUMemoryManager :=
  { m with
    hunks := m.hunks.map
      (fun hk => if hk.addr == a then { hk with handler := some hid } else hk)
    handles := fun i => if i = hid then some a else m.handles i }

/-- The `while (true)` loop of `real_alloc`: try to place; on failure, if
the recency ring is nonempty (`head != head->least_recent_ptr`), call
`real_free(head->least_recent_ptr->handler_ptr)` — the handle of the
least-recently-used hunk — and retry from scratch; with no live hunk left
return null.  The loop is fuelled; `real_alloc` supplies one more unit
than the live-hunk count, which suffices (each failed pass evicts one
hunk). -/
def real_alloc_go (hid asz : Nat) : Nat → LRUMemoryManager → AllocResult
  | 0, _ => .outOfFuel
  | fuel + 1, m =>
    match try_alloc m asz with
    | some p => .success p.1 (bindNew p.2 hid p.1)
    | none =>
      match m.lru.getLast? with
      | none => .failure m
      | some v =>
        match m.hunks.find? (fun hk => hk.addr == v) with
        | none => .crash
        | some vhk =>
          match vhk.handler with
          | none => .crash
          | some vh =>
            match real_free m vh with
            | none => .crash
            | some m2 => real_alloc_go hid asz fuel m2

/-- Model of `LRUMemoryManager::real_alloc(handle_ptr, size)`: align the size, then
run the evict-and-retry loop. -/
def real_alloc (m : LRUMemoryManager) (hid size : Nat) : AllocResult :=
  real_alloc_go hid (alignedSizeOf size) (m.hunks.length + 1) m

/-- Model of `LRUMemoryManager::real_get_buffer(handle_ptr)`: null hunk pointer
gives a null result and no state change; otherwise the hunk moves to the
most-recently-used end of the recency ring (`unlink_lru` then `link_lru`)
and the payload pointer `hunk_ptr->data_ptr` (offset `a + headerSize`) is
returned. -/
def real_get_buffer (m : LRUMemoryManager) (hid : Nat) :
    Option Nat × LRUMemoryManager :=
  match m.handles hid with
  | none => (none, m)
  | some a => (some (a + headerSize), { m with lru := a :: m.lru.erase a })

/-- Public wrapper `alloc` (header): forwards to `real_alloc` with no
check of its preconditions. -/
def alloc (m : LRUMemoryManager) (hid size : Nat) : AllocResult :=
  real_alloc m hid size

/-- Public wrapper `free` (header): forwards to `real_free`. -/
def free (m : LRUMemoryManager) (hid : Nat) : Option LRUMemoryManager :=
  real_free m hid

/-- Public wrapper `get_buffer_and_refresh` (header): forwards to
`real_get_buffer`. -/
def get_buffer_and_refresh (m : LRUMemoryManager) (hid : Nat) :
    Option Nat × LRUMemoryManager :=
  real_get_buffer m hid

/-- The loop body of `flush`: while the address ring is nonempty, call
`real_free(head_hunk_ptr->next_ptr->handler_ptr)` on the first hunk in
address order.  Fuelled by the live-hunk count; `none` models either a
null `handler_ptr` dereference or a non-terminating loop, neither of
which occurs on well-formed states. -/
def flush_go : Nat → LRUMemoryManager → Option LRUMemoryManager
  | 0, m =>
    match m.hunks with
    | [] => some m
    | _ :: _ => none
  | fuel + 1, m =>
    match m.hunks with
    | [] => some m
    | hk :: _ =>
      match hk.handler with
      | none => none
      | some h =>
        match real_free m h with
        | none => none
        | some m2 => flush_go fuel m2

/-- Model of `LRUMemoryManager::flush()`: keep removing the first allocated hunk
until only the sentinel remains. -/
def flush (m : LRUMemoryManager) : Option LRUMemoryManager :=
  flush_go m.hunks.length m

/-! Well-formedness of the arena, as maintained by the source: starting
from the sentinel end, every hunk begins at or after the end of its
predecessor (strict ascending addresses, no overlap), every hunk size is a
multiple of 16 and at least the header, and the last hunk ends inside the
pool. -/

/-- Chain predicate over the address ring: `prevEnd` is the end of the
previous hunk (initially the sentinel end `headerSize`). -/
def hunksOk (cap : Nat) : Nat → List LRUMemoryHunk → Prop
  | prevEnd, [] => prevEnd ≤ cap
  | prevEnd, hk :: rest =>
    prevEnd ≤ hk.addr ∧ hk.size % 16 = 0 ∧ headerSize ≤ hk.size ∧
      hunksOk cap (hk.addr + hk.size) rest

/-- Total size of the live hunks in a ring segment. -/
def sumSizes (l : List LRUMemoryHunk) : Nat :=
  (l.map LRUMemoryHunk.size).sum

/-- Well-formed manager state: the address ring is a valid chain inside
the pool, `mem_allocated_size_` is the sentinel header plus the live hunk
sizes, and the recency list holds exactly the live hunk addresses. -/
def WF (m : LRUMemoryManager) : Prop :=
  hunksOk m.mem_total_size_ headerSize m.hunks ∧
  m.mem_allocated_size_ = headerSize + sumSizes m.hunks ∧
  List.Perm m.lru (m.hunks.map LRUMemoryHunk.addr)

/-- Mutual consistency of the hunk/handle back-pointers: every live hunk
is bound to a handle that points back at it, and every bound handle points
at a live hunk that points back at it. -/
def Consistent (m : LRUMemoryManager) : Prop :=
  (∀ hk ∈ m.hunks, ∃ h, hk.handler = some h ∧ m.handles h = some hk.addr) ∧
  (∀ h a, m.handles h = some a →
    ∃ hk ∈ m.hunks, hk.addr = a ∧ hk.handler = some h)

/-- The free gaps the placement walk inspects, in walk order: one gap in
front of every hunk (between the previous end and the hunk start) and the
tail gap between the last end and the pool end.  Each entry is
(low edge, width). -/
def gapsFrom (cap : Nat) : Nat → List LRUMemoryHunk → List (Nat × Nat)
  | prevEnd, [] => [(prevEnd, cap - prevEnd)]
  | prevEnd, hk :: rest =>
    (prevEnd, hk.addr - prevEnd) :: gapsFrom cap (hk.addr + hk.size) rest

/-- All free gaps of a manager state, in address order. -/
def gaps (m : LRUMemoryManager) : List (Nat × Nat) :=
  gapsFrom m.mem_total_size_ headerSize m.hunks

/-- Well-formedness of the state carried by an allocation outcome; the
crash and fuel artefacts carry no state. -/
def resultWF : AllocResult → Prop
  | .success _ m2 => WF m2
  | .failure m2 => WF m2
  | _ => True

/-- Of an `AllocResult`, whether it is a successful allocation. -/
def resultIsSuccess : AllocResult → Bool
  | .success _ _ => true
  | _ => false

/-- The live-hunk count carried by a successful allocation outcome. -/
def resultSuccessHunkCount : AllocResult → Option Nat
  | .success _ m2 => some m2.hunks.length
  | _ => none

/-- The consumed-byte counter carried by a failed allocation outcome. -/
def resultFailureAllocated : AllocResult → Option Nat
  | .failure m2 => some m2.mem_allocated_size_
  | _ => none

/-- The binding state of one handle in the state carried by a failed
allocation outcome. -/
def resultFailureHandle (hid : Nat) : AllocResult → Option (Option Nat)
  | .failure m2 => some (m2.handles hid)
  | _ => none

/-- A concrete arena with one live hunk of 64 bytes at offset 48 bound to
handle 0, in a pool of the given capacity; used to evaluate the theorems
at concrete inputs. -/
def mkOne (cap : Nat) : LRUMemoryManager :=
  { mem_total_size_ := cap
    mem_allocated_size_ := 112
    hunks := [⟨48, 64, some 0⟩]
    lru := [48]
    handles := fun i => if i = 0 then some 48 else none }

/-- Concrete arena with plenty of room left. -/
def mBound : LRUMemoryManager := mkOne 2048

/-- Concrete arena that is full: no request can be placed without
evicting the single live hunk. -/
def mFull : LRUMemoryManager := mkOne 112

/-! Basic lemmas about the chain predicate. -/

theorem hunksOk_mono {cap p q : Nat} {l : List LRUMemoryHunk}
    (h : hunksOk cap p l) (hq : q ≤ p) : hunksOk cap q l := by
  cases l with
  | nil => exact le_trans hq h
  | cons hk rest => exact ⟨le_trans hq h.1, h.2.1, h.2.2.1, h.2.2.2⟩

theorem hunksOk_addr_lb {cap p : Nat} {l : List LRUMemoryHunk}
    (h : hunksOk cap p l) : ∀ hk ∈ l, p ≤ hk.addr := by
  induction l generalizing p with
  | nil => intro hk hmem; cases hmem
  | cons hd rest ih =>
    intro hk hmem
    rcases List.mem_cons.mp hmem with heq | hmem2
    · subst heq; exact h.1
    · exact le_trans (le_trans h.1 (Nat.le_add_right _ _))
        (ih h.2.2.2 hk hmem2)

theorem hunksOk_sum_le {cap p : Nat} {l : List LRUMemoryHunk}
    (h : hunksOk cap p l) : p + sumSizes l ≤ cap := by
  induction l generalizing p with
  | nil => simpa [sumSizes] using h
  | cons hd rest ih =>
    have hrec := ih h.2.2.2
    have h1 : p ≤ hd.addr := h.1
    simp only [sumSizes, List.map_cons, List.sum_cons] at hrec ⊢
    omega

theorem hunksOk_pairwise {cap p : Nat} {l : List LRUMemoryHunk}
    (h : hunksOk cap p l) :
    List.Pairwise (fun x y : LRUMemoryHunk => x.addr < y.addr) l := by
  induction l generalizing p with
  | nil => exact List.Pairwise.nil
  | cons hd rest ih =>
    refine List.Pairwise.cons ?_ (ih h.2.2.2)
    intro hk hmem
    have hlb := hunksOk_addr_lb h.2.2.2 hk hmem
    have hsz := h.2.2.1
    have : (0:Nat) < headerSize := by decide
    omega

theorem hunksOk_addr_nodup {cap p : Nat} {l : List LRUMemoryHunk}
    (h : hunksOk cap p l) : (l.map LRUMemoryHunk.addr).Nodup := by
  have hp := hunksOk_pairwise h
  have hmap : List.Pairwise (fun a b : Nat => a < b)
      (l.map LRUMemoryHunk.addr) :=
    List.Pairwise.map LRUMemoryHunk.addr (fun _ _ hab => hab) hp
  exact List.Pairwise.imp (fun hlt => Nat.ne_of_lt hlt) hmap

theorem headerSize_pos : 0 < headerSize := by decide

theorem alignedSizeOf_ge : ∀ n, headerSize ≤ alignedSizeOf n := by
  intro n
  have h1 : (63:Nat) / 16 ≤ (n + headerSize + 15) / 16 :=
    Nat.div_le_div_right (by unfold headerSize; omega)
  have h2 := Nat.mul_le_mul_left 16 h1
  simpa [alignedSizeOf, headerSize] using h2

theorem alignedSizeOf_mod : ∀ n, alignedSizeOf n % 16 = 0 := by
  intro n
  simp [alignedSizeOf, Nat.mul_mod_right]

/-! Lemmas about the placement walk `try_alloc_go`. -/

theorem try_alloc_go_lb {sz cap p a : Nat} {l l2 : List LRUMemoryHunk}
    (hok : hunksOk cap p l)
    (h : try_alloc_go sz cap p l = some (a, l2)) : p ≤ a := by
  induction l generalizing p a l2 with
  | nil =>
    simp only [try_alloc_go] at h
    split at h
    · exact (Prod.mk.injEq _ _ _ _ ▸ Option.some.inj h).1 ▸ le_refl _
    · exact absurd h (by simp)
  | cons hk rest ih =>
    simp only [try_alloc_go] at h
    split at h
    · exact (Prod.mk.injEq _ _ _ _ ▸ Option.some.inj h).1 ▸ le_refl _
    · rcases Option.map_eq_some'.mp h with ⟨⟨a0, l0⟩, hrec, heq⟩
      have ha : a0 = a := congrArg Prod.fst heq
      subst ha
      exact le_trans hok.1 (le_trans (Nat.le_add_right _ _)
        (ih hok.2.2.2 hrec))

theorem try_alloc_go_shape {sz cap p a : Nat} {l l2 : List LRUMemoryHunk}
    (h : try_alloc_go sz cap p l = some (a, l2)) :
    ∃ pre post, l = pre ++ post ∧ l2 = pre ++ ⟨a, sz, none⟩ :: post := by
  induction l generalizing p a l2 with
  | nil =>
    simp only [try_alloc_go] at h
    split at h
    · obtain ⟨h1, h2⟩ := Prod.mk.injEq _ _ _ _ ▸ Option.some.inj h
      exact ⟨[], [], by simp, by simp [h1, h2.symm]⟩
    · exact absurd h (by simp)
  | cons hk rest ih =>
    simp only [try_alloc_go] at h
    split at h
    · obtain ⟨h1, h2⟩ := Prod.mk.injEq _ _ _ _ ▸ Option.some.inj h
      exact ⟨[], hk :: rest, by simp, by simp [h1, h2.symm]⟩
    · rcases Option.map_eq_some'.mp h with ⟨⟨a0, l0⟩, hrec, heq⟩
      obtain ⟨h1, h2⟩ := Prod.mk.injEq _ _ _ _ ▸ heq
      subst h1
      rcases ih hrec with ⟨pre, post, hl, hl2⟩
      exact ⟨hk :: pre, post, by simp [hl], by simp [← h2, hl2]⟩

theorem try_alloc_go_hunksOk {sz cap p a : Nat} {l l2 : List LRUMemoryHunk}
    (hok : hunksOk cap p l) (hsz16 : sz % 16 = 0) (hszh : headerSize ≤ sz)
    (h : try_alloc_go sz cap p l = some (a, l2)) : hunksOk cap p l2 := by
  induction l generalizing p a l2 with
  | nil =>
    simp only [try_alloc_go] at h
    split at h
    · obtain ⟨h1, h2⟩ := Prod.mk.injEq _ _ _ _ ▸ Option.some.inj h
      subst h1
      rw [← h2]
      exact ⟨le_refl _, hsz16, hszh, by assumption⟩
    · exact absurd h (by simp)
  | cons hk rest ih =>
    simp only [try_alloc_go] at h
    split at h
    · obtain ⟨h1, h2⟩ := Prod.mk.injEq _ _ _ _ ▸ Option.some.inj h
      subst h1
      rw [← h2]
      exact ⟨le_refl _, hsz16, hszh,
        ⟨by assumption, hok.2.1, hok.2.2.1, hok.2.2.2⟩⟩
    · rcases Option.map_eq_some'.mp h with ⟨⟨a0, l0⟩, hrec, heq⟩
      obtain ⟨h1, h2⟩ := Prod.mk.injEq _ _ _ _ ▸ heq
      subst h1
      rw [← h2]
      exact ⟨hok.1, hok.2.1, hok.2.2.1, ih hok.2.2.2 hrec⟩

theorem try_alloc_go_sum {sz cap p a : Nat} {l l2 : List LRUMemoryHunk}
    (h : try_alloc_go sz cap p l = some (a, l2)) :
    sumSizes l2 = sumSizes l + sz := by
  rcases try_alloc_go_shape h with ⟨pre, post, hl, hl2⟩
  subst hl; subst hl2
  simp [sumSizes]
  omega

theorem try_alloc_go_perm {sz cap p a : Nat} {l l2 : List LRUMemoryHunk}
    (h : try_alloc_go sz cap p l = some (a, l2)) :
    List.Perm (l2.map LRUMemoryHunk.addr) (a :: l.map LRUMemoryHunk.addr) := by
  rcases try_alloc_go_shape h with ⟨pre, post, hl, hl2⟩
  subst hl; subst hl2
  simp only [List.map_append, List.map_cons]
  exact List.perm_middle

theorem try_alloc_go_fresh {sz cap p a : Nat} {l l2 : List LRUMemoryHunk}
    (hok : hunksOk cap p l) (hpos : 0 < sz)
    (h : try_alloc_go sz cap p l = some (a, l2)) :
    a ∉ l.map LRUMemoryHunk.addr := by
  induction l generalizing p a l2 with
  | nil => simp
  | cons hk rest ih =>
    simp only [try_alloc_go] at h
    split at h
    · obtain ⟨h1, _⟩ := Prod.mk.injEq _ _ _ _ ▸ Option.some.inj h
      subst h1
      intro hmem
      rcases List.mem_cons.mp hmem with heq | hmem2
      · omega
      · have := hunksOk_addr_lb hok.2.2.2 _ (List.mem_map.mp hmem2).choose_spec.1
        rcases List.mem_map.mp hmem2 with ⟨hk2, hmem3, haddr⟩
        have hlb := hunksOk_addr_lb hok.2.2.2 hk2 hmem3
        have hszh := hok.2.2.1
        unfold headerSize at hszh
        omega
    · rcases Option.map_eq_some'.mp h with ⟨⟨a0, l0⟩, hrec, heq⟩
      have h1 : a0 = a := congrArg Prod.fst heq
      subst h1
      have hlb := try_alloc_go_lb hok.2.2.2 hrec
      have hszh := hok.2.2.1
      unfold headerSize at hszh
      intro hmem
      rcases List.mem_cons.mp hmem with heq2 | hmem2
      · omega
      · exact ih hok.2.2.2 hrec hmem2

/-! Lemmas about removal (`real_free`). -/

theorem find?_eraseP_split {q : LRUMemoryHunk → Bool} {l : List LRUMemoryHunk}
    {hk : LRUMemoryHunk} (h : l.find? q = some hk) :
    ∃ l1 l2, (∀ b ∈ l1, q b = false) ∧ q hk = true ∧
      l = l1 ++ hk :: l2 ∧ l.eraseP q = l1 ++ l2 := by
  induction l with
  | nil => simp at h
  | cons hd rest ih =>
    by_cases hq : q hd
    · rw [List.find?_cons_of_pos _ hq] at h
      have : hd = hk := Option.some.inj h
      subst this
      exact ⟨[], rest, by simp, hq, by simp, by simp [List.eraseP_cons, hq]⟩
    · rw [List.find?_cons_of_neg _ hq] at h
      rcases ih h with ⟨l1, l2, hl1, hhk, hsplit, herase⟩
      refine ⟨hd :: l1, l2, ?_, hhk, by simp [hsplit], ?_⟩
      · intro b hb
        rcases List.mem_cons.mp hb with rfl | hb2
        · exact Bool.eq_false_iff.mpr hq
        · exact hl1 b hb2
      · simp [List.eraseP_cons, Bool.eq_false_iff.mpr hq, herase]

theorem hunksOk_eraseP {cap p : Nat} {q : LRUMemoryHunk → Bool}
    {l : List LRUMemoryHunk} (hok : hunksOk cap p l) :
    hunksOk cap p (l.eraseP q) := by
  induction l generalizing p with
  | nil => exact hok
  | cons hd rest ih =>
    by_cases hq : q hd
    · simp only [List.eraseP_cons, hq, cond_true]
      exact hunksOk_mono hok.2.2.2 (le_trans hok.1 (Nat.le_add_right _ _))
    · simp only [List.eraseP_cons, hq, cond_false]
      exact ⟨hok.1, hok.2.1, hok.2.2.1, ih hok.2.2.2⟩

theorem sumSizes_append (l1 l2 : List LRUMemoryHunk) :
    sumSizes (l1 ++ l2) = sumSizes l1 + sumSizes l2 := by
  simp [sumSizes]

theorem real_free_inv {m : LRUMemoryManager} {hid : Nat}
    {m2 : LRUMemoryManager} (h : real_free m hid = some m2) :
    ∃ a hk, m.handles hid = some a ∧
      m.hunks.find? (fun k => k.addr == a) = some hk ∧
      m2 = { m with
        hunks := m.hunks.eraseP (fun k => k.addr == a)
        lru := m.lru.erase a
        mem_allocated_size_ := m.mem_allocated_size_ - hk.size
        handles := fun i => if i = hid then none else m.handles i } := by
  unfold real_free at h
  split at h
  · exact absurd h (by simp)
  · rename_i a ha
    split at h
    · exact absurd h (by simp)
    · rename_i hk hfind
      exact ⟨a, hk, ha, hfind, (Option.some.inj h).symm⟩

theorem real_free_eq {m : LRUMemoryManager} {hid a : Nat}
    {hk : LRUMemoryHunk} (h1 : m.handles hid = some a)
    (h2 : m.hunks.find? (fun k => k.addr == a) = some hk) :
    real_free m hid = some { m with
      hunks := m.hunks.eraseP (fun k => k.addr == a)
      lru := m.lru.erase a
      mem_allocated_size_ := m.mem_allocated_size_ - hk.size
      handles := fun i => if i = hid then none else m.handles i } := by
  simp only [real_free, h1, h2]

theorem real_free_WF {m m2 : LRUMemoryManager} {hid : Nat} (hw : WF m)
    (h : real_free m hid = some m2) : WF m2 := by
  rcases real_free_inv h with ⟨a, hk, _ha, hfind, hm2⟩
  rcases find?_eraseP_split hfind with ⟨l1, l2, hl1, hhk, hsplit, herase⟩
  have haddr : hk.addr = a := by simpa using hhk
  subst hm2
  refine ⟨hunksOk_eraseP hw.1, ?_, ?_⟩
  · have hsum : sumSizes m.hunks = sumSizes (l1 ++ l2) + hk.size := by
      rw [hsplit, sumSizes_append, sumSizes_append]
      simp [sumSizes]
      omega
    have halloc := hw.2.1
    simp only [herase]
    omega
  · have hperm := hw.2.2
    have hmapsplit : m.hunks.map LRUMemoryHunk.addr
        = (l1 ++ hk :: l2).map LRUMemoryHunk.addr := by rw [← hsplit]
    have hmid : List.Perm ((l1 ++ hk :: l2).map LRUMemoryHunk.addr)
        (hk.addr :: (l1 ++ l2).map LRUMemoryHunk.addr) := by
      simp only [List.map_append, List.map_cons]
      exact List.perm_middle
    have h1 : List.Perm (m.lru.erase a)
        ((m.hunks.map LRUMemoryHunk.addr).erase a) := List.Perm.erase a hperm
    have h2 : List.Perm ((m.hunks.map LRUMemoryHunk.addr).erase a)
        ((hk.addr :: (l1 ++ l2).map LRUMemoryHunk.addr).erase a) := by
      exact List.Perm.erase a (hmapsplit ▸ hmid)
    have h3 : (hk.addr :: (l1 ++ l2).map LRUMemoryHunk.addr).erase a
        = (l1 ++ l2).map LRUMemoryHunk.addr := by
      rw [haddr, List.erase_cons_head]
    rw [h3] at h2
    simp only [herase]
    exact h1.trans h2

theorem real_free_length {m m2 : LRUMemoryManager} {hid : Nat}
    (h : real_free m hid = some m2) :
    m2.hunks.length + 1 = m.hunks.length := by
  rcases real_free_inv h with ⟨a, hk, _ha, hfind, hm2⟩
  rcases find?_eraseP_split hfind with ⟨l1, l2, _hl1, _hhk, hsplit, herase⟩
  subst hm2
  simp only [herase]
  rw [hsplit]
  simp only [List.length_append, List.length_cons]
  omega

theorem real_free_Consistent {m m2 : LRUMemoryManager} {hid : Nat}
    (hw : WF m) (hc : Consistent m) (h : real_free m hid = some m2) :
    Consistent m2 := by
  rcases real_free_inv h with ⟨a, hk, ha, hfind, hm2⟩
  rcases find?_eraseP_split hfind with ⟨l1, l2, hl1, hhk, hsplit, herase⟩
  have haddr : hk.addr = a := by simpa using hhk
  have hnd : (m.hunks.map LRUMemoryHunk.addr).Nodup := hunksOk_addr_nodup hw.1
  have hmid : m.hunks.map LRUMemoryHunk.addr
      = l1.map LRUMemoryHunk.addr ++ a :: l2.map LRUMemoryHunk.addr := by
    rw [hsplit]; simp [haddr]
  have hnotin : a ∉ l1.map LRUMemoryHunk.addr ++ l2.map LRUMemoryHunk.addr := by
    rw [hmid] at hnd
    exact (List.nodup_cons.mp (List.nodup_middle.mp hnd)).1
  have hnotin2 : ∀ b ∈ l1 ++ l2, b.addr ≠ a := by
    intro b hb hba
    exact hnotin (by
      rw [← List.map_append]
      exact List.mem_map.mpr ⟨b, hb, hba⟩)
  have hhkmem : ∀ b ∈ l1 ++ l2, b ≠ hk := by
    intro b hb hbhk
    exact hnotin2 b hb (hbhk ▸ haddr)
  have hmemfull : ∀ b ∈ l1 ++ l2, b ∈ m.hunks := by
    intro b hb
    rw [hsplit]
    rcases List.mem_append.mp hb with hb1 | hb2
    · exact List.mem_append.mpr (Or.inl hb1)
    · exact List.mem_append.mpr (Or.inr (List.mem_cons.mpr (Or.inr hb2)))
  have hhk_handler : hk.handler = some hid := by
    rcases hc.2 hid a ha with ⟨hk3, hmem3, haddr3, hhand3⟩
    have : hk3 = hk := by
      rw [hsplit] at hmem3
      rcases List.mem_append.mp hmem3 with hb1 | hb2
      · exact absurd haddr3 (hnotin2 hk3 (List.mem_append.mpr (Or.inl hb1)))
      · rcases List.mem_cons.mp hb2 with heq | hb3
        · exact heq
        · exact absurd haddr3
            (hnotin2 hk3 (List.mem_append.mpr (Or.inr hb3)))
    exact this ▸ hhand3
  subst hm2
  constructor
  · intro hk2 hmem2
    simp only [herase] at hmem2
    rcases hc.1 hk2 (hmemfull hk2 hmem2) with ⟨h0, hhand0, hbind0⟩
    have hne : h0 ≠ hid := by
      intro heq
      subst heq
      rw [ha] at hbind0
      exact hnotin2 hk2 hmem2 (Option.some.inj hbind0).symm
    exact ⟨h0, hhand0, by simpa [hne] using hbind0⟩
  · intro h b hb
    simp only at hb
    by_cases hh : h = hid
    · simp [hh] at hb
    · rw [if_neg hh] at hb
      rcases hc.2 h b hb with ⟨hk2, hmem2, haddr2, hhand2⟩
      have hne : hk2 ≠ hk := by
        intro heq
        rw [heq, hhk_handler] at hhand2
        exact hh (Option.some.inj hhand2).symm
      have hmem3 : hk2 ∈ l1 ++ l2 := by
        rw [hsplit] at hmem2
        rcases List.mem_append.mp hmem2 with hb1 | hb2
        · exact List.mem_append.mpr (Or.inl hb1)
        · rcases List.mem_cons.mp hb2 with heq | hb3
          · exact absurd heq hne
          · exact List.mem_append.mpr (Or.inr hb3)
      exact ⟨hk2, by simpa [herase] using hmem3, haddr2, hhand2⟩

/-! Lemmas about `try_alloc` and `bindNew`. -/

theorem try_alloc_inv {m : LRUMemoryManager} {sz a : Nat}
    {m2 : LRUMemoryManager} (h : try_alloc m sz = some (a, m2)) :
    ∃ l2, try_alloc_go sz m.mem_total_size_ headerSize m.hunks = some (a, l2) ∧
      m2 = { m with
        hunks := l2
        lru := a :: m.lru
        mem_allocated_size_ := m.mem_allocated_size_ + sz } := by
  unfold try_alloc at h
  rcases Option.map_eq_some'.mp h with ⟨⟨a0, l0⟩, hgo, heq⟩
  obtain ⟨h1, h2⟩ := Prod.mk.injEq _ _ _ _ ▸ heq
  subst h1
  exact ⟨l0, hgo, h2.symm⟩

theorem try_alloc_WF {m : LRUMemoryManager} {sz a : Nat}
    {m2 : LRUMemoryManager} (hw : WF m) (h16 : sz % 16 = 0)
    (hh : headerSize ≤ sz) (h : try_alloc m sz = some (a, m2)) : WF m2 := by
  rcases try_alloc_inv h with ⟨l2, hgo, hm2⟩
  subst hm2
  refine ⟨try_alloc_go_hunksOk hw.1 h16 hh hgo, ?_, ?_⟩
  · have := try_alloc_go_sum hgo
    have halloc := hw.2.1
    simp only [this]
    omega
  · have hperm := try_alloc_go_perm hgo
    exact ((hw.2.2.cons a).trans hperm.symm).symm.symm

theorem hunksOk_map_preserve {cap p : Nat} {l : List LRUMemoryHunk}
    {f : LRUMemoryHunk → LRUMemoryHunk}
    (hpres : ∀ hk, (f hk).addr = hk.addr ∧ (f hk).size = hk.size)
    (hok : hunksOk cap p l) : hunksOk cap p (l.map f) := by
  induction l generalizing p with
  | nil => exact hok
  | cons hd rest ih =>
    refine ⟨(hpres hd).1 ▸ hok.1, (hpres hd).2 ▸ hok.2.1,
      (hpres hd).2 ▸ hok.2.2.1, ?_⟩
    rw [(hpres hd).1, (hpres hd).2]
    exact ih hok.2.2.2

theorem bindNew_preserve (hid a : Nat) :
    ∀ hk : LRUMemoryHunk,
      ((if hk.addr == a then { hk with handler := some hid } else hk).addr
          = hk.addr) ∧
      ((if hk.addr == a then { hk with handler := some hid } else hk).size
          = hk.size) := by
  intro hk
  by_cases h : hk.addr == a <;> simp [h]

theorem sumSizes_map_preserve {l : List LRUMemoryHunk}
    {f : LRUMemoryHunk → LRUMemoryHunk}
    (hpres : ∀ hk, (f hk).size = hk.size) :
    sumSizes (l.map f) = sumSizes l := by
  simp only [sumSizes, List.map_map]
  congr 1
  apply List.map_congr_left
  intro hk _
  exact hpres hk

theorem map_addr_map_preserve {l : List LRUMemoryHunk}
    {f : LRUMemoryHunk → LRUMemoryHunk}
    (hpres : ∀ hk, (f hk).addr = hk.addr) :
    (l.map f).map LRUMemoryHunk.addr = l.map LRUMemoryHunk.addr := by
  simp only [List.map_map]
  apply List.map_congr_left
  intro hk _
  exact hpres hk

theorem bindNew_WF {m : LRUMemoryManager} {hid a : Nat} (hw : WF m) :
    WF (bindNew m hid a) := by
  refine ⟨hunksOk_map_preserve (bindNew_preserve hid a) hw.1, ?_, ?_⟩
  · simp only [bindNew]
    rw [sumSizes_map_preserve (fun hk => (bindNew_preserve hid a hk).2)]
    exact hw.2.1
  · simp only [bindNew]
    rw [map_addr_map_preserve (fun hk => (bindNew_preserve hid a hk).1)]
    exact hw.2.2

theorem bindNew_Consistent {m m2 : LRUMemoryManager} {hid a sz : Nat}
    (hw : WF m) (hc : Consistent m) (hun : m.handles hid = none)
    (hpos : 0 < sz) (h : try_alloc m sz = some (a, m2)) :
    Consistent (bindNew m2 hid a) := by
  rcases try_alloc_inv h with ⟨l2, hgo, hm2⟩
  have hfresh := try_alloc_go_fresh hw.1 hpos hgo
  rcases try_alloc_go_shape hgo with ⟨pre, post, hsplit, hl2⟩
  have holdmem : ∀ hk : LRUMemoryHunk, hk ∈ m.hunks → hk ∈ l2 := by
    intro hk hmem
    rw [hsplit] at hmem
    rw [hl2]
    rcases List.mem_append.mp hmem with h1 | h2
    · exact List.mem_append.mpr (Or.inl h1)
    · exact List.mem_append.mpr (Or.inr (List.mem_cons.mpr (Or.inr h2)))
  have hnewmem : (⟨a, sz, none⟩ : LRUMemoryHunk) ∈ l2 := by
    rw [hl2]
    exact List.mem_append.mpr (Or.inr (List.mem_cons.mpr (Or.inl rfl)))
  have hl2mem : ∀ hk : LRUMemoryHunk, hk ∈ l2 →
      hk ∈ m.hunks ∨ hk = ⟨a, sz, none⟩ := by
    intro hk hmem
    rw [hl2] at hmem
    rcases List.mem_append.mp hmem with h1 | h2
    · exact Or.inl (hsplit ▸ List.mem_append.mpr (Or.inl h1))
    · rcases List.mem_cons.mp h2 with heq | h3
      · exact Or.inr heq
      · exact Or.inl (hsplit ▸ List.mem_append.mpr (Or.inr h3))
  have hold_ne : ∀ hk : LRUMemoryHunk, hk ∈ m.hunks → hk.addr ≠ a := by
    intro hk hmem heq
    exact hfresh (List.mem_map.mpr ⟨hk, hmem, heq⟩)
  have hfold : ∀ hk : LRUMemoryHunk, hk ∈ m.hunks →
      (if hk.addr == a then { hk with handler := some hid } else hk) = hk := by
    intro hk hmem
    simp [hold_ne hk hmem]
  subst hm2
  constructor
  · intro hk2 hmem2
    simp only [bindNew, List.mem_map] at hmem2
    rcases hmem2 with ⟨hk1, hmem1, hf⟩
    rcases hl2mem hk1 hmem1 with hold | hnew
    · rw [hfold hk1 hold] at hf
      subst hf
      rcases hc.1 hk1 hold with ⟨h0, hhand0, hbind0⟩
      have hne : h0 ≠ hid := by
        intro heq
        rw [heq, hun] at hbind0
        exact Option.noConfusion hbind0
      refine ⟨h0, hhand0, ?_⟩
      show (if h0 = hid then some a else m.handles h0) = some hk1.addr
      rw [if_neg hne]
      exact hbind0
    · subst hnew
      have hbeq : ((⟨a, sz, none⟩ : LRUMemoryHunk).addr == a) = true := by
        simp
      rw [if_pos hbeq] at hf
      subst hf
      refine ⟨hid, rfl, ?_⟩
      show (if hid = hid then some a else m.handles hid)
        = some (LRUMemoryHunk.addr ⟨a, sz, some hid⟩)
      rw [if_pos rfl]
  · intro h0 b hb
    have hb2 : (if h0 = hid then some a else m.handles h0) = some b := hb
    by_cases hh : h0 = hid
    · rw [if_pos hh] at hb2
      obtain rfl : a = b := Option.some.inj hb2
      refine ⟨⟨a, sz, some hid⟩, ?_, rfl, ?_⟩
      · refine List.mem_map.mpr ⟨⟨a, sz, none⟩, hnewmem, ?_⟩
        have hbeq : ((⟨a, sz, none⟩ : LRUMemoryHunk).addr == a) = true := by
          simp
        rw [if_pos hbeq]
      · rw [hh]
    · rw [if_neg hh] at hb2
      rcases hc.2 h0 b hb2 with ⟨hk1, hmem1, haddr1, hhand1⟩
      refine ⟨hk1, ?_, haddr1, hhand1⟩
      exact List.mem_map.mpr ⟨hk1, holdmem hk1 hmem1, hfold hk1 hmem1⟩

theorem find?_addr_of_mem {l : List LRUMemoryHunk} {v : Nat}
    (h : v ∈ l.map LRUMemoryHunk.addr) :
    ∃ vhk, l.find? (fun hk => hk.addr == v) = some vhk ∧ vhk.addr = v ∧
      vhk ∈ l := by
  have hsome : (l.find? (fun hk => hk.addr == v)).isSome := by
    rw [List.find?_isSome]
    rcases List.mem_map.mp h with ⟨hk, hmem, haddr⟩
    exact ⟨hk, hmem, by simp [haddr]⟩
  rcases Option.isSome_iff_exists.mp hsome with ⟨vhk, hfind⟩
  refine ⟨vhk, hfind, ?_, List.mem_of_find?_eq_some hfind⟩
  have := List.find?_some hfind
  simpa using this

/-- One failed pass of the eviction loop: with a nonempty recency ring,
the hunk at the ring tail is found, its handle is read from the
back-pointer, `real_free` succeeds on exactly that hunk, the handle comes
out unbound, the live-hunk count drops by one, and the loop continues on
the resulting state. -/
theorem evict_step (hid : Nat) {m : LRUMemoryManager} {asz v : Nat}
    (hw : WF m) (hc : Consistent m)
    (htry : try_alloc m asz = none) (hv : m.lru.getLast? = some v) :
    ∃ h0 vhk m2,
      m.hunks.find? (fun hk => hk.addr == v) = some vhk ∧
      vhk.handler = some h0 ∧
      m.handles h0 = some v ∧
      real_free m h0 = some m2 ∧
      m2.handles h0 = none ∧
      m2.hunks.length + 1 = m.hunks.length ∧
      WF m2 ∧ Consistent m2 ∧
      v ∉ m2.hunks.map LRUMemoryHunk.addr ∧
      (∀ fuel, real_alloc_go hid asz (fuel + 1) m
        = real_alloc_go hid asz fuel m2) := by
  have hvlru : v ∈ m.lru := by
    rcases List.mem_getLast?_eq_getLast (Option.mem_def.mpr hv) with
      ⟨hne, heq⟩
    rw [heq]
    exact List.getLast_mem hne
  have hvmap : v ∈ m.hunks.map LRUMemoryHunk.addr := hw.2.2.mem_iff.mp hvlru
  rcases find?_addr_of_mem hvmap with ⟨vhk, hfind, haddr, hmem⟩
  rcases hc.1 vhk hmem with ⟨h0, hhand0, hbind0⟩
  rw [haddr] at hbind0
  have hfree := real_free_eq hbind0 hfind
  have hunb : (fun i => if i = h0 then none else m.handles i) h0
      = (none : Option Nat) := by simp
  have hnotin : v ∉ (m.hunks.eraseP
      (fun k => k.addr == v)).map LRUMemoryHunk.addr := by
    rcases find?_eraseP_split hfind with ⟨l1, l2, hl1, hhk, hsplit, herase⟩
    have hnd : (m.hunks.map LRUMemoryHunk.addr).Nodup := hunksOk_addr_nodup hw.1
    have hmid : m.hunks.map LRUMemoryHunk.addr
        = l1.map LRUMemoryHunk.addr ++ v :: l2.map LRUMemoryHunk.addr := by
      rw [hsplit]; simp [haddr]
    rw [hmid] at hnd
    have hnin := (List.nodup_cons.mp (List.nodup_middle.mp hnd)).1
    rw [herase, List.map_append]
    exact hnin
  refine ⟨h0, vhk, _, hfind, hhand0, hbind0, hfree, hunb, ?_, ?_, ?_, hnotin, ?_⟩
  · exact real_free_length hfree
  · exact real_free_WF hw hfree
  · exact real_free_Consistent hw hc hfree
  · intro fuel
    simp only [real_alloc_go, htry, hv, hfind, hhand0, hfree]


theorem real_free_preserve_unbound {m m2 : LRUMemoryManager} {hid i : Nat}
    (h : real_free m hid = some m2) (hi : m.handles i = none) :
    m2.handles i = none := by
  rcases real_free_inv h with ⟨a, hk, _, _, hm2⟩
  subst hm2
  by_cases hih : i = hid <;> simp [hih, hi]

theorem real_free_total {m m2 : LRUMemoryManager} {hid : Nat}
    (h : real_free m hid = some m2) :
    m2.mem_total_size_ = m.mem_total_size_ := by
  rcases real_free_inv h with ⟨a, hk, _, _, hm2⟩
  subst hm2
  rfl

/-! The evict-and-retry loop. -/

theorem real_alloc_go_WF {hid asz : Nat} (h16 : asz % 16 = 0)
    (hh : headerSize ≤ asz) :
    ∀ fuel m, WF m → resultWF (real_alloc_go hid asz fuel m) := by
  intro fuel
  induction fuel with
  | zero => intro m _; trivial
  | succ fuel ih =>
    intro m hw
    cases htry : try_alloc m asz with
    | some p =>
      obtain ⟨a0, m0⟩ := p
      simp only [real_alloc_go, htry]
      exact bindNew_WF (try_alloc_WF hw h16 hh htry)
    | none =>
      cases hlast : m.lru.getLast? with
      | none =>
        simp only [real_alloc_go, htry, hlast]
        exact hw
      | some v =>
        cases hfind : m.hunks.find? (fun hk => hk.addr == v) with
        | none => simp only [real_alloc_go, htry, hlast, hfind]; trivial
        | some vhk =>
          cases hhand : vhk.handler with
          | none => simp only [real_alloc_go, htry, hlast, hfind, hhand]; trivial
          | some vh =>
            cases hfree : real_free m vh with
            | none =>
              simp only [real_alloc_go, htry, hlast, hfind, hhand, hfree]
              trivial
            | some m2 =>
              simp only [real_alloc_go, htry, hlast, hfind, hhand, hfree]
              exact ih m2 (real_free_WF hw hfree)

theorem real_alloc_go_total {hid asz : Nat} :
    ∀ fuel m, WF m → Consistent m → m.hunks.length < fuel →
      (∃ a m2, real_alloc_go hid asz fuel m = .success a m2) ∨
      (∃ m2, real_alloc_go hid asz fuel m = .failure m2) := by
  intro fuel
  induction fuel with
  | zero => intro m _ _ hlen; omega
  | succ fuel ih =>
    intro m hw hc hlen
    cases htry : try_alloc m asz with
    | some p =>
      refine Or.inl ⟨p.1, bindNew p.2 hid p.1, ?_⟩
      simp only [real_alloc_go, htry]
    | none =>
      cases hlast : m.lru.getLast? with
      | none =>
        refine Or.inr ⟨m, ?_⟩
        simp only [real_alloc_go, htry, hlast]
      | some v =>
        rcases evict_step hid hw hc htry hlast with
          ⟨h0, vhk, m2, _hfind, _hhand, _hbind, hfree, _hunb, hlen2,
            hw2, hc2, _hnotin, hloop⟩
        rw [hloop fuel]
        exact ih m2 hw2 hc2 (by omega)

theorem real_alloc_go_failure {hid asz : Nat} :
    ∀ fuel m m2, WF m → Consistent m → m.handles hid = none →
      real_alloc_go hid asz fuel m = .failure m2 →
      (m2.handles hid = none ∧ m2.hunks = [] ∧ m2.lru = [] ∧
        m2.mem_allocated_size_ = headerSize ∧
        m2.mem_total_size_ = m.mem_total_size_) ∧
      (m.hunks = [] → m2 = m) := by
  intro fuel
  induction fuel with
  | zero => intro m m2 _ _ _ h; exact absurd h (by simp [real_alloc_go])
  | succ fuel ih =>
    intro m m2 hw hc hun h
    cases htry : try_alloc m asz with
    | some p =>
      simp only [real_alloc_go, htry] at h
      exact absurd h (by simp)
    | none =>
      cases hlast : m.lru.getLast? with
      | none =>
        simp only [real_alloc_go, htry, hlast] at h
        injection h with hm2
        subst hm2
        have hlru : m.lru = [] := List.getLast?_eq_none_iff.mp hlast
        have hmap : m.hunks.map LRUMemoryHunk.addr = [] :=
          List.Perm.eq_nil (hlru ▸ hw.2.2).symm
        have hhunks : m.hunks = [] := List.map_eq_nil_iff.mp hmap
        refine ⟨⟨hun, hhunks, hlru, ?_, rfl⟩, fun _ => rfl⟩
        rw [hw.2.1, hhunks]
        simp [sumSizes]
      | some v =>
        rcases evict_step hid hw hc htry hlast with
          ⟨h0, vhk, mstep, _hfind, _hhand, _hbind, hfree, _hunb, _hlen2,
            hwstep, hcstep, _hnotin, hloop⟩
        rw [hloop fuel] at h
        have hunstep := real_free_preserve_unbound hfree hun
        have hres := ih mstep m2 hwstep hcstep hunstep h
        have hvne : m.hunks ≠ [] := by
          intro hnil
          have : v ∈ m.hunks.map LRUMemoryHunk.addr := by
            rcases List.mem_getLast?_eq_getLast (Option.mem_def.mpr hlast)
              with ⟨hne, heq⟩
            exact hw.2.2.mem_iff.mp (heq ▸ List.getLast_mem hne)
          rw [hnil] at this
          simp at this
        refine ⟨⟨hres.1.1, hres.1.2.1, hres.1.2.2.1, hres.1.2.2.2.1, ?_⟩,
          fun hnil => absurd hnil hvne⟩
        rw [hres.1.2.2.2.2]
        exact real_free_total hfree

/-! Flush. -/

theorem handles_all_none_of_empty {m : LRUMemoryManager}
    (hc : Consistent m) (hnil : m.hunks = []) : ∀ h, m.handles h = none := by
  intro h
  cases hh : m.handles h with
  | none => rfl
  | some a =>
    rcases hc.2 h a hh with ⟨hk, hmem, _, _⟩
    rw [hnil] at hmem
    cases hmem

theorem flush_go_spec :
    ∀ fuel m, WF m → Consistent m → m.hunks.length ≤ fuel →
      ∃ m2, flush_go fuel m = some m2 ∧ m2.hunks = [] ∧ m2.lru = [] ∧
        m2.mem_allocated_size_ = headerSize ∧
        m2.mem_total_size_ = m.mem_total_size_ ∧
        ∀ h, m2.handles h = none := by
  intro fuel
  induction fuel with
  | zero =>
    intro m hw hc hlen
    cases hhunks : m.hunks with
    | cons hk rest => rw [hhunks] at hlen; simp at hlen
    | nil =>
      refine ⟨m, by simp only [flush_go, hhunks], hhunks, ?_, ?_, rfl,
        handles_all_none_of_empty hc hhunks⟩
      · exact List.Perm.eq_nil (by simpa [hhunks] using hw.2.2)
      · rw [hw.2.1, hhunks]; simp [sumSizes]
  | succ fuel ih =>
    intro m hw hc hlen
    cases hhunks : m.hunks with
    | nil =>
      refine ⟨m, by simp only [flush_go, hhunks], hhunks, ?_, ?_, rfl,
        handles_all_none_of_empty hc hhunks⟩
      · exact List.Perm.eq_nil (by simpa [hhunks] using hw.2.2)
      · rw [hw.2.1, hhunks]; simp [sumSizes]
    | cons hk rest =>
      have hmem : hk ∈ m.hunks := by rw [hhunks]; exact List.mem_cons_self _ _
      rcases hc.1 hk hmem with ⟨h0, hhand0, hbind0⟩
      have hfind : m.hunks.find? (fun k => k.addr == hk.addr) = some hk := by
        rw [hhunks]
        exact List.find?_cons_of_pos _ (by simp)
      have hfree := real_free_eq hbind0 hfind
      have hstep := real_free_length hfree
      rcases ih _ (real_free_WF hw hfree) (real_free_Consistent hw hc hfree)
        (by omega) with
        ⟨m2, hgo, hnil2, hlru2, halloc2, htot2, hnone2⟩
      refine ⟨m2, ?_, hnil2, hlru2, halloc2, ?_, hnone2⟩
      · rw [← hgo]
        simp only [flush_go, hhunks, hhand0, hfree]
      · rw [htot2]

/-! Lemmas for the refresh operation. -/

theorem filter_erase_ne (l : List Nat) (a : Nat) :
    (l.erase a).filter (fun x => x != a) = l.filter (fun x => x != a) := by
  induction l with
  | nil => rfl
  | cons hd t ih =>
    rw [List.erase_cons]
    by_cases h : hd = a
    · subst h
      rw [if_pos (by simp)]
      simp [List.filter_cons]
    · have hbeq : (hd == a) = false := by simpa using h
      rw [if_neg (by simp [h])]
      rw [List.filter_cons, List.filter_cons, ih]

/-! Well-formedness of the concrete evaluation states. -/

theorem WF_init {cap : Nat} (h : headerSize ≤ cap) : WF (init cap) := by
  refine ⟨h, ?_, List.Perm.refl _⟩
  simp [init, sumSizes]

theorem Consistent_init (cap : Nat) : Consistent (init cap) := by
  constructor
  · intro hk hmem
    cases hmem
  · intro h a hb
    exact absurd hb (by simp [init])

theorem WF_mkOne {cap : Nat} (h : 112 ≤ cap) : WF (mkOne cap) := by
  refine ⟨⟨le_refl _, by norm_num, ?_, ?_⟩, ?_, List.Perm.refl _⟩
  · show headerSize ≤ 64
    norm_num [headerSize]
  · show 48 + 64 ≤ cap
    omega
  · simp [mkOne, sumSizes, headerSize]

theorem Consistent_mkOne (cap : Nat) : Consistent (mkOne cap) := by
  constructor
  · intro hk hmem
    have : hk = ⟨48, 64, some 0⟩ := by
      rcases List.mem_cons.mp hmem with heq | hmem2
      · exact heq
      · cases hmem2
    subst this
    exact ⟨0, rfl, by simp [mkOne]⟩
  · intro h a hb
    by_cases hh : h = 0
    · subst hh
      have ha : a = 48 := by
        have : (some 48 : Option Nat) = some a := by
          simpa [mkOne] using hb
        exact (Option.some.inj this).symm
      subst ha
      exact ⟨⟨48, 64, some 0⟩, List.mem_cons_self _ _, rfl, rfl⟩
    · exact absurd hb (by simp [mkOne, hh])

/-! First-fit characterization: the placement walk returns exactly the
first gap (in address order, tail gap last) whose width fits the request. -/

theorem try_alloc_go_find_gap {sz cap : Nat} :
    ∀ l p, hunksOk cap p l →
      (try_alloc_go sz cap p l).map Prod.fst
        = ((gapsFrom cap p l).find?
            (fun g => decide (sz ≤ g.2))).map Prod.fst := by
  intro l
  induction l with
  | nil =>
    intro p hok
    have hok2 : p ≤ cap := hok
    by_cases h : p + sz ≤ cap
    · have hgap : decide (sz ≤ cap - p) = true := by
        simp only [decide_eq_true_eq]
        omega
      simp only [try_alloc_go, if_pos h, gapsFrom, List.find?, hgap,
        Option.map_some']
    · have hgap : decide (sz ≤ cap - p) = false := by
        simp only [decide_eq_false_iff_not]
        omega
      simp only [try_alloc_go, if_neg h, gapsFrom, List.find?, hgap,
        Option.map_none']
  | cons hk rest ih =>
    intro p hok
    have hple : p ≤ hk.addr := hok.1
    by_cases h : p + sz ≤ hk.addr
    · have hgap : decide (sz ≤ hk.addr - p) = true := by
        simp only [decide_eq_true_eq]
        omega
      simp only [try_alloc_go, if_pos h, gapsFrom, List.find?, hgap,
        Option.map_some']
    · have hgap : decide (sz ≤ hk.addr - p) = false := by
        simp only [decide_eq_false_iff_not]
        omega
      simp only [try_alloc_go, if_neg h, gapsFrom, List.find?, hgap]
      rw [← ih (hk.addr + hk.size) hok.2.2.2]
      cases hrec : try_alloc_go sz cap (hk.addr + hk.size) rest with
      | none => simp [hrec]
      | some q => simp [hrec]

/-! Claim theorems. -/

/-- C1 (counterexample): on the full arena with handle 0 bound, an
oversized request fails, but the final state is not unchanged: the live
hunk was evicted (consumed drops from 112 back to the bare header) and
handle 0 was silently unbound. -/
theorem alloc_failure_changes_state_cex :
    resultFailureAllocated (real_alloc mFull 1 100) = some headerSize ∧
    mFull.mem_allocated_size_ = 112 ∧
    resultFailureHandle 0 (real_alloc mFull 1 100) = some none ∧
    mFull.handles 0 = some 48 := by
  refine ⟨rfl, rfl, rfl, rfl⟩

/-- C1 (amended): when alloc fails, the requesting handle (unbound at
entry) stays unbound and no partial allocation is left, but every live
hunk has been evicted: the final state has an empty address ring and
recency ring and the consumed counter is back at the bare header; the
state is fully unchanged only when the arena held no live hunk at entry. -/
theorem alloc_failure_state (m : LRUMemoryManager) (hid n : Nat)
    (hw : WF m) (hc : Consistent m) (hun : m.handles hid = none) :
    ∀ m2, real_alloc m hid n = AllocResult.failure m2 →
      (m2.handles hid = none ∧ m2.hunks = [] ∧ m2.lru = [] ∧
        m2.mem_allocated_size_ = headerSize ∧
        m2.mem_total_size_ = m.mem_total_size_) ∧
      (m.hunks = [] → m2 = m) :=
  fun m2 h => real_alloc_go_failure (m.hunks.length + 1) m m2 hw hc hun h

theorem alloc_failure_state_witness :
    ((init 48).handles 0 = none ∧ (init 48).hunks = [] ∧
      (init 48).lru = [] ∧ (init 48).mem_allocated_size_ = headerSize ∧
      (init 48).mem_total_size_ = (init 48).mem_total_size_) ∧
    ((init 48).hunks = [] → init 48 = init 48) :=
  alloc_failure_state (init 48) 0 1 (WF_init (by norm_num [headerSize]))
    (Consistent_init 48) rfl (init 48) rfl

/-- C4 (code evaluation): a zero-size request is not rejected: the code
aligns it to a bare-header hunk of 48 bytes and the allocation succeeds
on a fresh arena, contradicting the spec and the repository's own
`ZeroSizeAllocation` death test. -/
theorem zero_size_alloc_succeeds :
    alignedSizeOf 0 = headerSize ∧
    resultIsSuccess (real_alloc (init 2048) 0 0) = true := ⟨rfl, rfl⟩

/-- C7: on a well-formed, consistent arena the evict-then-retry loop of
alloc, fuelled with one more pass than the live-hunk count, always
reaches a terminal outcome: either a successful placement or a failure;
it never runs out of fuel and never dereferences a null handle. -/
theorem alloc_terminates (m : LRUMemoryManager) (hid n : Nat)
    (hw : WF m) (hc : Consistent m) :
    (∃ a m2, real_alloc m hid n = AllocResult.success a m2) ∨
    (∃ m2, real_alloc m hid n = AllocResult.failure m2) :=
  real_alloc_go_total (m.hunks.length + 1) m hw hc (Nat.lt_succ_self _)

theorem alloc_terminates_witness :
    (∃ a m2, real_alloc mFull 1 5 = AllocResult.success a m2) ∨
    (∃ m2, real_alloc mFull 1 5 = AllocResult.failure m2) :=
  alloc_terminates mFull 1 5 (WF_mkOne (by norm_num)) (Consistent_mkOne 112)

/-- C8: flush drains the arena by repeatedly releasing the first hunk in
address order: it succeeds, the final state has empty address and recency
rings (begin() equals end() in both iteration orders), consumed bytes are
back at the bare header, and every handle is unbound. -/
theorem flush_drains (m : LRUMemoryManager) (hw : WF m) (hc : Consistent m) :
    ∃ m2, flush m = some m2 ∧ m2.hunks = [] ∧ m2.lru = [] ∧
      m2.mem_allocated_size_ = headerSize ∧
      m2.mem_total_size_ = m.mem_total_size_ ∧
      ∀ h, m2.handles h = none :=
  flush_go_spec m.hunks.length m hw hc (le_refl _)

theorem flush_drains_witness :
    ∃ m2, flush mBound = some m2 ∧ m2.hunks = [] ∧ m2.lru = [] ∧
      m2.mem_allocated_size_ = headerSize ∧
      m2.mem_total_size_ = mBound.mem_total_size_ ∧
      ∀ h, m2.handles h = none :=
  flush_drains mBound (WF_mkOne (by norm_num)) (Consistent_mkOne 2048)

/-- C6 (counterexample): the constructor only requires a positive pool
size, so a pool of 1 byte is accepted, yet the sentinel alone consumes 48
bytes: after construction `consumed <= capacity` is violated. -/
theorem tiny_pool_not_wf_cex :
    ¬ ((init 1).mem_allocated_size_ ≤ (init 1).mem_total_size_) := by decide

/-- C6 (amended): provided the pool is at least as large as the hunk
header (48 bytes), construction establishes well-formedness — ascending
non-overlapping address ring, sizes multiples of 16 and at least the
header, consumed within capacity — and every operation preserves it. -/
theorem wf_preserved :
    (∀ cap, headerSize ≤ cap → WF (init cap)) ∧
    (∀ m : LRUMemoryManager, WF m →
      m.mem_allocated_size_ ≤ m.mem_total_size_) ∧
    (∀ m hid n, WF m → resultWF (real_alloc m hid n)) ∧
    (∀ m hid m2, WF m → real_free m hid = some m2 → WF m2) ∧
    (∀ m hid, WF m → Consistent m → WF (get_buffer_and_refresh m hid).2) ∧
    (∀ m m2, WF m → Consistent m → flush m = some m2 → WF m2) := by
  refine ⟨fun cap h => WF_init h, ?_, ?_, ?_, ?_, ?_⟩
  · intro m hw
    rw [hw.2.1]
    exact hunksOk_sum_le hw.1
  · intro m hid n hw
    exact real_alloc_go_WF (alignedSizeOf_mod n) (alignedSizeOf_ge n) _ m hw
  · intro m hid m2 hw h
    exact real_free_WF hw h
  · intro m hid hw hc
    cases hh : m.handles hid with
    | none =>
      simp only [get_buffer_and_refresh, real_get_buffer, hh]
      exact hw
    | some a =>
      simp only [get_buffer_and_refresh, real_get_buffer, hh]
      refine ⟨hw.1, hw.2.1, ?_⟩
      have hmem : a ∈ m.lru := by
        rcases hc.2 hid a hh with ⟨hk, hmem, haddr, _⟩
        exact hw.2.2.mem_iff.mpr (List.mem_map.mpr ⟨hk, hmem, haddr⟩)
      exact ((List.perm_cons_erase hmem).symm.trans hw.2.2)
  · intro m m2 hw hc h
    rcases flush_go_spec m.hunks.length m hw hc (le_refl _) with
      ⟨m3, hflush, hnil, hlru, halloc, htot, _⟩
    rw [show flush m = flush_go m.hunks.length m from rfl] at h
    rw [h] at hflush
    injection hflush with hm23
    subst hm23
    refine ⟨?_, ?_, ?_⟩
    · show hunksOk m2.mem_total_size_ headerSize m2.hunks
      rw [hnil, htot]
      show headerSize ≤ m.mem_total_size_
      have := hunksOk_sum_le hw.1
      omega
    · rw [halloc, hnil]
      simp [sumSizes]
    · rw [hlru, hnil]
      exact List.Perm.refl _

theorem wf_preserved_witness :
    WF (init 2048) ∧ mBound.mem_allocated_size_ ≤ mBound.mem_total_size_ :=
  ⟨wf_preserved.1 2048 (by norm_num [headerSize]),
    wf_preserved.2.1 mBound (WF_mkOne (by norm_num))⟩

/-- C2: alloc rounds the request up to `aligned_size`, the smallest
multiple of 16 that holds the request plus the header, and the placement
walk is exactly first-fit: its result is the low edge of the first gap
(address order, tail gap last) whose width is at least `aligned_size`,
and it is empty exactly when no gap fits — never a later, smaller
sufficient gap. -/
theorem alloc_first_fit (m : LRUMemoryManager) (n : Nat) (hw : WF m) :
    (16 ∣ alignedSizeOf n ∧ n + headerSize ≤ alignedSizeOf n ∧
      alignedSizeOf n < n + headerSize + 16) ∧
    (try_alloc m (alignedSizeOf n)).map Prod.fst
      = ((gaps m).find? (fun g => decide (alignedSizeOf n ≤ g.2))).map
          Prod.fst := by
  constructor
  · have hdm := Nat.div_add_mod (n + headerSize + 15) 16
    have hmlt : (n + headerSize + 15) % 16 < 16 := Nat.mod_lt _ (by norm_num)
    refine ⟨Dvd.intro _ rfl, ?_, ?_⟩ <;>
      · simp only [alignedSizeOf]
        omega
  · have hL : (try_alloc m (alignedSizeOf n)).map Prod.fst
        = (try_alloc_go (alignedSizeOf n) m.mem_total_size_ headerSize
            m.hunks).map Prod.fst := by
      unfold try_alloc
      cases try_alloc_go (alignedSizeOf n) m.mem_total_size_ headerSize
        m.hunks with
      | none => rfl
      | some p => rfl
    exact hL.trans (try_alloc_go_find_gap m.hunks headerSize hw.1)

theorem alloc_first_fit_witness :
    ((try_alloc mBound (alignedSizeOf 1)).map Prod.fst
      = ((gaps mBound).find?
          (fun g => decide (alignedSizeOf 1 ≤ g.2))).map Prod.fst) ∧
    (try_alloc mBound (alignedSizeOf 1)).map Prod.fst = some 112 :=
  ⟨(alloc_first_fit mBound 1 (WF_mkOne (by norm_num))).2, rfl⟩

/-- C3: when a placement pass finds no gap and a live hunk exists, the
evicted hunk is exactly the tail of the recency ring: its back-pointed
handle is freed, that handle comes out unbound and a later
`get_buffer_and_refresh` on it returns a null result (not an error), the
hunk leaves the address ring, and the loop restarts the whole placement
search on the post-eviction state. -/
theorem eviction_is_lru_tail (m : LRUMemoryManager) (hid n v : Nat)
    (hw : WF m) (hc : Consistent m)
    (hfail : try_alloc m (alignedSizeOf n) = none)
    (hv : m.lru.getLast? = some v) :
    ∃ h0 vhk m2,
      m.hunks.find? (fun hk => hk.addr == v) = some vhk ∧
      vhk.handler = some h0 ∧
      real_free m h0 = some m2 ∧
      m2.handles h0 = none ∧
      m2.hunks.length + 1 = m.hunks.length ∧
      v ∉ m2.hunks.map LRUMemoryHunk.addr ∧
      (get_buffer_and_refresh m2 h0).1 = none ∧
      ∀ fuel, real_alloc_go hid (alignedSizeOf n) (fuel + 1) m
        = real_alloc_go hid (alignedSizeOf n) fuel m2 := by
  rcases evict_step hid hw hc hfail hv with
    ⟨h0, vhk, m2, hfind, hhand, _hbind, hfree, hunb, hlen, _hw2, _hc2,
      hnotin, hloop⟩
  refine ⟨h0, vhk, m2, hfind, hhand, hfree, hunb, hlen, hnotin, ?_, hloop⟩
  simp only [get_buffer_and_refresh, real_get_buffer, hunb]

theorem eviction_is_lru_tail_witness :
    ∃ h0 vhk m2,
      mFull.hunks.find? (fun hk => hk.addr == 48) = some vhk ∧
      vhk.handler = some h0 ∧
      real_free mFull h0 = some m2 ∧
      m2.handles h0 = none ∧
      m2.hunks.length + 1 = mFull.hunks.length ∧
      48 ∉ m2.hunks.map LRUMemoryHunk.addr ∧
      (get_buffer_and_refresh m2 h0).1 = none ∧
      ∀ fuel, real_alloc_go 1 (alignedSizeOf 1) (fuel + 1) mFull
        = real_alloc_go 1 (alignedSizeOf 1) fuel m2 :=
  eviction_is_lru_tail mFull 1 1 48 (WF_mkOne (by norm_num))
    (Consistent_mkOne 112) rfl rfl

/-- C5: `get_buffer_and_refresh` on an unbound handle returns a null
result and leaves the whole state unchanged; on a handle bound to the
hunk at offset `a` it returns the payload pointer `a + headerSize`,
moves that hunk to the most-recently-used end of the recency ring, and
leaves the address ring, the handle table, the byte counters and the
relative recency order of every other hunk unchanged. -/
theorem get_buffer_and_refresh_spec (m : LRUMemoryManager) (hid : Nat)
    (_hw : WF m) (_hc : Consistent m) :
    (m.handles hid = none → get_buffer_and_refresh m hid = (none, m)) ∧
    (∀ a, m.handles hid = some a →
      (get_buffer_and_refresh m hid).1 = some (a + headerSize) ∧
      (get_buffer_and_refresh m hid).2.hunks = m.hunks ∧
      (get_buffer_and_refresh m hid).2.handles = m.handles ∧
      (get_buffer_and_refresh m hid).2.mem_allocated_size_
        = m.mem_allocated_size_ ∧
      (get_buffer_and_refresh m hid).2.mem_total_size_ = m.mem_total_size_ ∧
      (get_buffer_and_refresh m hid).2.lru = a :: m.lru.erase a ∧
      ((get_buffer_and_refresh m hid).2.lru).filter (fun x => x != a)
        = m.lru.filter (fun x => x != a)) := by
  constructor
  · intro h
    simp only [get_buffer_and_refresh, real_get_buffer, h]
  · intro a ha
    simp only [get_buffer_and_refresh, real_get_buffer, ha, true_and]
    simpa [List.filter_cons] using filter_erase_ne m.lru a

theorem get_buffer_and_refresh_spec_witness :
    (get_buffer_and_refresh mBound 0).1 = some 96 ∧
    (get_buffer_and_refresh mBound 0).2.hunks = mBound.hunks ∧
    (get_buffer_and_refresh mBound 0).2.lru = 48 :: mBound.lru.erase 48 ∧
    (get_buffer_and_refresh mBound 1).1 = none := by
  have h := get_buffer_and_refresh_spec mBound 0 (WF_mkOne (by norm_num))
    (Consistent_mkOne 2048)
  rcases h.2 48 rfl with ⟨h1, h2, _, _, _, h6, _⟩
  exact ⟨h1, h2, h6, rfl⟩

/-- A successful placement on an arena with no live hunks always lands at
the sentinel end, offset `headerSize`. -/
theorem real_alloc_empty (m : LRUMemoryManager) (hid n : Nat)
    (hnil : m.hunks = [])
    (hfit : headerSize + alignedSizeOf n ≤ m.mem_total_size_) :
    real_alloc m hid n = AllocResult.success headerSize
      (bindNew
        { m with
          hunks := [⟨headerSize, alignedSizeOf n, none⟩]
          lru := headerSize :: m.lru
          mem_allocated_size_ := m.mem_allocated_size_ + alignedSizeOf n }
        hid headerSize) := by
  have htry : try_alloc m (alignedSizeOf n) = some (headerSize,
      { m with
        hunks := [⟨headerSize, alignedSizeOf n, none⟩]
        lru := headerSize :: m.lru
        mem_allocated_size_ := m.mem_allocated_size_ + alignedSizeOf n }) := by
    unfold try_alloc
    rw [hnil]
    simp only [try_alloc_go]
    rw [if_pos hfit]
    rfl
  simp only [real_alloc, real_alloc_go, htry]

/-- Existential form of `real_alloc_empty`, exposing the fields of the
state after a successful placement on an empty arena. -/
theorem real_alloc_empty_spec (m : LRUMemoryManager) (hid n : Nat)
    (hnil : m.hunks = [])
    (hfit : headerSize + alignedSizeOf n ≤ m.mem_total_size_) :
    ∃ m2, real_alloc m hid n = AllocResult.success headerSize m2 ∧
      m2.handles hid = some headerSize ∧
      m2.hunks = [⟨headerSize, alignedSizeOf n, some hid⟩] ∧
      m2.lru = headerSize :: m.lru ∧
      m2.mem_total_size_ = m.mem_total_size_ ∧
      m2.mem_allocated_size_ = m.mem_allocated_size_ + alignedSizeOf n := by
  refine ⟨_, real_alloc_empty m hid n hnil hfit, ?_, ?_, rfl, rfl, rfl⟩
  · exact if_pos rfl
  · rfl

/-- Existential form of `real_free_eq`, exposing the fields of the state
after a release. -/
theorem real_free_spec (m : LRUMemoryManager) (hid a : Nat)
    (hk : LRUMemoryHunk) (h1 : m.handles hid = some a)
    (h2 : m.hunks.find? (fun k => k.addr == a) = some hk) :
    ∃ m2, real_free m hid = some m2 ∧
      m2.hunks = m.hunks.eraseP (fun k => k.addr == a) ∧
      m2.lru = m.lru.erase a ∧
      m2.mem_allocated_size_ = m.mem_allocated_size_ - hk.size ∧
      m2.mem_total_size_ = m.mem_total_size_ ∧
      m2.handles hid = none :=
  ⟨_, real_free_eq h1 h2, rfl, rfl, rfl, rfl, by simp⟩

/-- C9: on an empty arena, allocating a size that fits binds the handle
to the hunk at the sentinel end (offset 48); freeing it and allocating
the same size again lands at exactly the same offset — one alloc/free
cycle leaves no fragmentation. -/
theorem alloc_free_alloc_roundtrip (cap n hid hid2 : Nat)
    (hfit : headerSize + alignedSizeOf n ≤ cap) :
    ∃ m1 m2 m3,
      real_alloc (init cap) hid n = AllocResult.success headerSize m1 ∧
      m1.handles hid = some headerSize ∧
      real_free m1 hid = some m2 ∧
      m2.hunks = [] ∧ m2.lru = [] ∧
      m2.mem_allocated_size_
        = headerSize + alignedSizeOf n - alignedSizeOf n ∧
      real_alloc m2 hid2 n = AllocResult.success headerSize m3 ∧
      m3.handles hid2 = some headerSize := by
  obtain ⟨m1, hr1, hh1, hhunks1, hlru1, htot1, halloc1⟩ :=
    real_alloc_empty_spec (init cap) hid n rfl hfit
  have hfind1 : m1.hunks.find? (fun k => k.addr == headerSize)
      = some ⟨headerSize, alignedSizeOf n, some hid⟩ := by
    rw [hhunks1]
    rfl
  obtain ⟨m2, hfree, h2h, h2l, h2a, h2t, _⟩ :=
    real_free_spec m1 hid headerSize ⟨headerSize, alignedSizeOf n, some hid⟩
      hh1 hfind1
  have h2hunks : m2.hunks = [] := by
    rw [h2h, hhunks1]
    rfl
  have h2lru : m2.lru = [] := by
    rw [h2l, hlru1]
    rfl
  have h2alloc : m2.mem_allocated_size_
      = headerSize + alignedSizeOf n - alignedSizeOf n := by
    rw [h2a, halloc1]
    rfl
  have hfit2 : headerSize + alignedSizeOf n ≤ m2.mem_total_size_ := by
    rw [h2t, htot1]
    exact hfit
  obtain ⟨m3, hr3, hh3, _, _, _, _⟩ :=
    real_alloc_empty_spec m2 hid2 n h2hunks hfit2
  exact ⟨m1, m2, m3, hr1, hh1, hfree, h2hunks, h2lru, h2alloc, hr3, hh3⟩

theorem alloc_free_alloc_roundtrip_witness :
    ∃ m1 m2 m3,
      real_alloc (init 2048) 7 100 = AllocResult.success headerSize m1 ∧
      m1.handles 7 = some headerSize ∧
      real_free m1 7 = some m2 ∧
      m2.hunks = [] ∧ m2.lru = [] ∧
      m2.mem_allocated_size_
        = headerSize + alignedSizeOf 100 - alignedSizeOf 100 ∧
      real_alloc m2 8 100 = AllocResult.success headerSize m3 ∧
      m3.handles 8 = some headerSize :=
  alloc_free_alloc_roundtrip 2048 100 7 8 (by norm_num [headerSize, alignedSizeOf])

/-- C10 (counterexample): with handle 0 bound to the only live hunk of a
full arena, a further alloc through handle 0 succeeds, but the old hunk
does not remain linked: the eviction loop follows the tail hunk's
back-pointer to handle 0 itself and frees the old hunk, so the final
state holds a single hunk. -/
theorem alloc_bound_handle_cex :
    mFull.handles 0 = some 48 ∧
    resultIsSuccess (real_alloc mFull 0 1) = true ∧
    resultSuccessHunkCount (real_alloc mFull 0 1) = some 1 :=
  ⟨rfl, rfl, rfl⟩

/-- C10 (amended): alloc never checks that the handle is unbound.  If the
handle is bound to the hunk at offset a0 and the first placement pass
succeeds (so no eviction runs), the handle is rebound to the new hunk at
a fresh offset, while the old hunk stays linked in both rings with its
back-pointer still aimed at the same handle: the mutual-consistency
invariant no longer holds for it, and no handle can reach it for an
explicit free.  (If instead the search has to evict, the old hunk itself
can be torn down first, as the counterexample shows.) -/
theorem alloc_rebind_leaks (m : LRUMemoryManager) (hid n a0 : Nat)
    (hw : WF m) (hc : Consistent m) (hb : m.handles hid = some a0)
    (hfit : (try_alloc m (alignedSizeOf n)).isSome = true) :
    ∃ a m2, real_alloc m hid n = AllocResult.success a m2 ∧ a ≠ a0 ∧
      m2.handles hid = some a ∧
      (∃ hk ∈ m2.hunks, hk.addr = a0 ∧ hk.handler = some hid) ∧
      a0 ∈ m2.lru := by
  rcases Option.isSome_iff_exists.mp hfit with ⟨p, htry⟩
  obtain ⟨a, mt⟩ := p
  have hreal : real_alloc m hid n = AllocResult.success a (bindNew mt hid a) := by
    simp only [real_alloc, real_alloc_go, htry]
  rcases try_alloc_inv htry with ⟨l2, hgo, hmt⟩
  have hpos : 0 < alignedSizeOf n :=
    lt_of_lt_of_le headerSize_pos (alignedSizeOf_ge n)
  have hfresh := try_alloc_go_fresh hw.1 hpos hgo
  rcases hc.2 hid a0 hb with ⟨hk0, hmem0, haddr0, hhand0⟩
  have ha0mem : a0 ∈ m.hunks.map LRUMemoryHunk.addr :=
    List.mem_map.mpr ⟨hk0, hmem0, haddr0⟩
  have hne : a ≠ a0 := fun heq => hfresh (heq ▸ ha0mem)
  rcases try_alloc_go_shape hgo with ⟨pre, post, hsplit, hl2⟩
  have hmem2 : hk0 ∈ l2 := by
    rw [hl2]
    rw [hsplit] at hmem0
    rcases List.mem_append.mp hmem0 with h1 | h2
    · exact List.mem_append.mpr (Or.inl h1)
    · exact List.mem_append.mpr (Or.inr (List.mem_cons.mpr (Or.inr h2)))
  have hkne : (hk0.addr == a) = false := by
    simp only [beq_eq_false_iff_ne, ne_eq]
    rw [haddr0]
    exact fun heq => hne heq.symm
  refine ⟨a, bindNew mt hid a, hreal, hne, ?_, ?_, ?_⟩
  · show (if hid = hid then some a else mt.handles hid) = some a
    rw [if_pos rfl]
  · refine ⟨hk0, ?_, haddr0, hhand0⟩
    show hk0 ∈ mt.hunks.map
      (fun hk => if hk.addr == a then { hk with handler := some hid } else hk)
    have hmtl : mt.hunks = l2 := by rw [hmt]
    refine List.mem_map.mpr ⟨hk0, hmtl ▸ hmem2, ?_⟩
    rw [hkne]
    simp
  · show a0 ∈ mt.lru
    have hlru : mt.lru = a :: m.lru := by rw [hmt]
    have ha0lru : a0 ∈ m.lru := hw.2.2.mem_iff.mpr ha0mem
    rw [hlru]
    exact List.mem_cons_of_mem _ ha0lru

theorem alloc_rebind_leaks_witness :
    ∃ a m2, real_alloc mBound 0 1 = AllocResult.success a m2 ∧ a ≠ 48 ∧
      m2.handles 0 = some a ∧
      (∃ hk ∈ m2.hunks, hk.addr = 48 ∧ hk.handler = some 0) ∧
      48 ∈ m2.lru :=
  alloc_rebind_leaks mBound 0 1 48 (WF_mkOne (by norm_num))
    (Consistent_mkOne 2048) rfl rfl

end LruMM
